import Mathlib

/-!
Shallow embedding of the detection-scoring engine of `src/metrics.py`
(wheat_efficientdet): IoU geometry, greedy matching, per-image precision,
dataset scoring and the confidence-cutoff sweep.

Numeric values are modelled with `ℚ`.  A Python runtime fault (the
`ZeroDivisionError` raised by a division whose denominator is zero, as with
numba's default "python" error model) is modelled by `Option`: `none` means
the computation raises instead of returning a value.

A ground-truth box array is a `List Box`; marking a matched box writes the
sentinel row `(-1, -1, -1, -1)` into it, exactly as `gts[idx] = -1` does on a
numpy row.  The IoU cache `ious` (a `len(gts) x len(preds)` numpy matrix of
`-1.0` sentinels) is modelled as a total function `Nat → Nat → ℚ`, updated
pointwise; `Option Cache` covers the `ious=None` default of the Python code.
-/

/-- A bounding box: four coordinates.  In `pascal_voc` form they are
`[xmin, ymin, xmax, ymax]`; in `coco` form `[xmin, ymin, w, h]`. -/
structure Box where
  c0 : ℚ
  c1 : ℚ
  c2 : ℚ
  c3 : ℚ
deriving DecidableEq, Repr

/-- The default row used by out-of-range list reads (never reached by the
in-range loops of the source). -/
def box0 : Box := ⟨0, 0, 0, 0⟩

/-- The in-place `coco` → `pascal_voc` conversion of `calculate_iou`
(lines 21–28 of metrics.py): `gt[2] = gt[0] + gt[2]; gt[3] = gt[1] + gt[3]`. -/
def cocoToCorners (b : Box) : Box := ⟨b.c0, b.c1, b.c0 + b.c2, b.c1 + b.c3⟩

/-- Body of `calculate_iou` after format conversion (metrics.py lines 30–50).
`dx = min(gt[2], pr[2]) - max(gt[0], pr[0]) + 1`; if `dx < 0` return `0.0`;
likewise `dy`; else return `overlap_area / union_area`.  The division is
unguarded in the source: when the union is zero the float division `0.0/0.0`
raises, modelled by `none`. -/
def iouCorners (g p : Box) : Option ℚ :=
  if min g.c2 p.c2 - max g.c0 p.c0 + 1 < 0 then some 0
  else if min g.c3 p.c3 - max g.c1 p.c1 + 1 < 0 then some 0
  else if (g.c2 - g.c0 + 1) * (g.c3 - g.c1 + 1) + (p.c2 - p.c0 + 1) * (p.c3 - p.c1 + 1) -
      (min g.c2 p.c2 - max g.c0 p.c0 + 1) * (min g.c3 p.c3 - max g.c1 p.c1 + 1) = 0 then none
  else some ((min g.c2 p.c2 - max g.c0 p.c0 + 1) * (min g.c3 p.c3 - max g.c1 p.c1 + 1) /
    ((g.c2 - g.c0 + 1) * (g.c3 - g.c1 + 1) + (p.c2 - p.c0 + 1) * (p.c3 - p.c1 + 1) -
      (min g.c2 p.c2 - max g.c0 p.c0 + 1) * (min g.c3 p.c3 - max g.c1 p.c1 + 1)))

/-- `calculate_iou(gt, pr, form)` of metrics.py (lines 6–50).  `coco = true`
selects the `"coco"` format branch which converts both boxes to corner form
on non-mutating copies first. -/
def calculate_iou (gt pr : Box) (coco : Bool) : Option ℚ :=
  iouCorners (if coco then cocoToCorners gt else gt) (if coco then cocoToCorners pr else pr)

/-- The IoU cache: `ious[gt_idx][pred_idx]`. -/
abbrev Cache := Nat → Nat → ℚ

/-- Pointwise write `ious[gt_idx][pred_idx] = v`. -/
def cacheSet (m : Cache) (i p : Nat) (v : ℚ) : Cache :=
  fun j q => if j = i ∧ q = p then v else m j q

/-- One `best` update of the `find_best_match` loop (metrics.py lines
91–96): skip the candidate when its IoU is below the threshold, replace the
running best only on a strictly larger IoU.  The accumulator's first
component is the running `best_match_iou` (`none` models the initial
`-np.inf`), the second `best_match_idx`. -/
def fbmStep (threshold : ℚ) (acc : Option ℚ × Int) (i : Nat) (iou : ℚ) : Option ℚ × Int :=
  if iou < threshold then acc
  else
    match acc.1 with
    | none => (some iou, Int.ofNat i)
    | some bv => if bv < iou then (some iou, Int.ofNat i) else acc

/-- The loop of `find_best_match` (metrics.py lines 74–98), iterating
`gt_idx = i, i+1, …` for `n` more steps.  For each ground-truth row not yet
marked matched (`gts[gt_idx][0] < 0` skips it): take the cached IoU (`-1`
when `ious is None`); when it is negative compute `calculate_iou` and store
it back (a raising IoU computation propagates as `none`); then perform the
threshold/best update. -/
def fbmGo (gts : List Box) (pred : Box) (predIdx : Nat) (threshold : ℚ) (coco : Bool) :
    Nat → Nat → Option Cache → Option ℚ × Int → Option (Int × Option Cache)
  | 0, _, ious, acc => some (acc.2, ious)
  | n + 1, i, ious, acc =>
    if (gts.getD i box0).c0 < 0 then
      fbmGo gts pred predIdx threshold coco n (i + 1) ious acc
    else
      match ious with
      | none =>
        match calculate_iou (gts.getD i box0) pred coco with
        | none => none
        | some v => fbmGo gts pred predIdx threshold coco n (i + 1) none (fbmStep threshold acc i v)
      | some m =>
        if m i predIdx < 0 then
          match calculate_iou (gts.getD i box0) pred coco with
          | none => none
          | some v =>
            fbmGo gts pred predIdx threshold coco n (i + 1)
              (some (cacheSet m i predIdx v)) (fbmStep threshold acc i v)
        else
          fbmGo gts pred predIdx threshold coco n (i + 1) (some m)
            (fbmStep threshold acc i (m i predIdx))

/-- `find_best_match(gts, pred, pred_idx, threshold, form, ious)`
(metrics.py lines 53–98): returns the best-match index (`-1` for no match)
together with the updated cache. -/
def find_best_match (gts : List Box) (pred : Box) (predIdx : Nat) (threshold : ℚ)
    (coco : Bool) (ious : Option Cache) : Option (Int × Option Cache) :=
  fbmGo gts pred predIdx threshold coco gts.length 0 ious (none, -1)

/-- State after the matching loop of `calculate_precision`: the (mutated)
ground-truth rows, the cache, the `tp`/`fp` counters, and the list of
ground-truth indices matched, in prediction order (instrumentation used to
state theorems; the source keeps only the counters). -/
structure MatchState where
  gts : List Box
  ious : Option Cache
  tp : Nat
  fp : Nat
  trace : List Nat

/-- The prediction loop of `calculate_precision` (metrics.py lines 120–132):
for each prediction call `find_best_match`; on a match (`index ≥ 0`)
increment `tp` and overwrite the matched ground-truth row with `-1`;
otherwise increment `fp`. -/
def cpGo (threshold : ℚ) (coco : Bool) :
    List Box → List Box → Nat → Option Cache → Nat → Nat → Option MatchState
  | gts, [], _, ious, tp, fp => some ⟨gts, ious, tp, fp, []⟩
  | gts, pred :: rest, predIdx, ious, tp, fp =>
    match find_best_match gts pred predIdx threshold coco ious with
    | none => none
    | some (r, ious1) =>
      if 0 ≤ r then
        match cpGo threshold coco (gts.set r.toNat ⟨-1, -1, -1, -1⟩) rest (predIdx + 1)
            ious1 (tp + 1) fp with
        | none => none
        | some s => some ⟨s.gts, s.ious, s.tp, s.fp, r.toNat :: s.trace⟩
      else cpGo threshold coco gts rest (predIdx + 1) ious1 tp (fp + 1)

/-- `fn = (gts.sum(axis=1) > 0).sum()` (metrics.py line 135): the number of
ground-truth rows whose four coordinates sum to a strictly positive value. -/
def fnCount (gts : List Box) : Nat :=
  gts.countP (fun b => decide (0 < b.c0 + b.c1 + b.c2 + b.c3))

/-- `calculate_precision(gts, preds, threshold, form, ious)` (metrics.py
lines 101–137) together with its final state: runs the matching loop, then
returns `tp / (tp + fp + fn)`.  When `tp + fp + fn = 0` the division is
`0/0` and raises (`none`). -/
def calculate_precision_full (gts preds : List Box) (threshold : ℚ) (coco : Bool)
    (ious : Option Cache) : Option (ℚ × MatchState) :=
  match cpGo threshold coco gts preds 0 ious 0 0 with
  | none => none
  | some s =>
    if s.tp + s.fp + fnCount s.gts = 0 then none
    else some ((s.tp : ℚ) / ((s.tp : ℚ) + (s.fp : ℚ) + (fnCount s.gts : ℚ)), s)

/-- The value returned by `calculate_precision`. -/
def calculate_precision (gts preds : List Box) (threshold : ℚ) (coco : Bool)
    (ious : Option Cache) : Option ℚ :=
  (calculate_precision_full gts preds threshold coco ious).map Prod.fst

/-- Decidable-friendly projection of the matching loop's outcome (drops the
function-valued cache): final rows, `tp`, `fp`, and the matched-index
trace. -/
def cpRun (gts preds : List Box) (threshold : ℚ) (coco : Bool) (ious : Option Cache) :
    Option (List Box × Nat × Nat × List Nat) :=
  (cpGo threshold coco gts preds 0 ious 0 0).map (fun s => (s.gts, s.tp, s.fp, s.trace))

/-- The threshold loop of `calculate_image_precision` (metrics.py lines
158–163): for each threshold run `calculate_precision` on `gts.copy()`
(the recursive call keeps the caller's `gts` unchanged and discards the
mutated copy in the returned state), reusing the IoU cache across
thresholds, and accumulate `precision_at_threshold / len(thresholds)`.
Returns the accumulated precision together with the caller's ground-truth
array after the loop. -/
def cipGo (gts preds : List Box) (coco : Bool) (nthr : Nat) :
    List ℚ → Option Cache → ℚ → Option (ℚ × List Box)
  | [], _, acc => some (acc, gts)
  | t :: rest, ious, acc =>
    match calculate_precision_full gts preds t coco ious with
    | none => none
    | some (p, s) => cipGo gts preds coco nthr rest s.ious (acc + p / (nthr : ℚ))

/-- `calculate_image_precision(gts, preds, thresholds, form)` (metrics.py
lines 140–164) with the caller's ground-truth array threaded through: the
cache starts as a `len(gts) x len(preds)` matrix of `-1` sentinels
(`np.ones((len(gts), len(preds))) * -1`). -/
def calculate_image_precision_full (gts preds : List Box) (thresholds : List ℚ)
    (coco : Bool) : Option (ℚ × List Box) :=
  cipGo gts preds coco thresholds.length thresholds (some (fun _ _ => -1)) 0

/-- The value returned by `calculate_image_precision`. -/
def calculate_image_precision (gts preds : List Box) (thresholds : List ℚ)
    (coco : Bool) : Option ℚ :=
  (calculate_image_precision_full gts preds thresholds coco).map Prod.fst

/-- One element of `all_predictions`: an image's ground-truth boxes,
predicted boxes and their confidence scores. -/
structure PredRecord where
  gt_boxes : List Box
  pred_boxes : List Box
  scores : List ℚ

/-- The prediction filter of `calculate_final_score` (metrics.py lines
179–181): keep the boxes whose confidence is strictly above
`score_threshold`, preserving order. -/
def filterByScore (r : PredRecord) (score_threshold : ℚ) : List Box :=
  ((r.pred_boxes.zip r.scores).filter (fun x => decide (score_threshold < x.2))).map Prod.fst

/-- The fixed competition IoU thresholds `[0.5, 0.55, 0.6, 0.65, 0.7, 0.75]`
(metrics.py line 184). -/
def competitionThresholds : List ℚ := [1/2, 11/20, 3/5, 13/20, 7/10, 3/4]

/-- The per-image loop of `calculate_final_score` (metrics.py lines
171–191): each image's precision over the competition thresholds, in
`pascal_voc` form. -/
def finalScoresList (score_threshold : ℚ) : List PredRecord → Option (List ℚ)
  | [] => some []
  | r :: rest =>
    match calculate_image_precision r.gt_boxes (filterByScore r score_threshold)
        competitionThresholds false with
    | none => none
    | some p => (finalScoresList score_threshold rest).map (fun l => p :: l)

/-- `calculate_final_score(all_predictions, score_threshold)` (metrics.py
lines 167–193): the mean of the per-image precisions.  `np.mean` of an
empty list is NaN, modelled `none`. -/
def calculate_final_score (all_predictions : List PredRecord) (score_threshold : ℚ) :
    Option ℚ :=
  match finalScoresList score_threshold all_predictions with
  | none => none
  | some l => if l.length = 0 then none else some (l.sum / (l.length : ℚ))

/-- `np.arange(start, stop, step)`: the `⌈(stop - start)/step⌉` values
`start + k·step`. -/
def aRange (start stop step : ℚ) : List ℚ :=
  (List.range (Int.toNat ⌈(stop - start) / step⌉)).map
    (fun (k : ℕ) => start + (k : ℚ) * step)

/-- The candidate score cutoffs swept by `evaluate_MAP` (metrics.py line
223): `np.arange(0.2, 0.5, 0.01)`. -/
def sweepGrid : List ℚ := aRange (1/5) (1/2) (1/100)

/-- The cutoff loop of `evaluate_MAP` (metrics.py lines 221–228):
`best_final_score = 0`, and each `final_score > best_final_score` replaces
the best.  (The `best_score_threshold` bookkeeping is commented out in the
source; only the score is tracked.) -/
def sweepGo (all_predictions : List PredRecord) : List ℚ → ℚ → Option ℚ
  | [], best => some best
  | c :: rest, best =>
    match calculate_final_score all_predictions c with
    | none => none
    | some s => sweepGo all_predictions rest (if best < s then s else best)

/-- The cutoff sweep of `evaluate_MAP` (metrics.py lines 221–229), returning
`best_final_score`.  (The tensor preprocessing of lines 197–219, which
builds `all_predictions` from torch tensors, is outside the scoring engine
and not modelled; the sweep consumes the finished record list.) -/
def evaluate_MAP_sweep (all_predictions : List PredRecord) : Option ℚ :=
  sweepGo all_predictions sweepGrid 0

/-- A valid corner-form box: `x_max ≥ x_min` and `y_max ≥ y_min`. -/
def ValidBox (b : Box) : Prop := b.c0 ≤ b.c2 ∧ b.c1 ≤ b.c3

/-- The effective IoU that `find_best_match` uses for ground-truth row `i`
against the current prediction, given the cache it was called with: the
cached value when the cell is nonnegative, else a fresh `calculate_iou`. -/
def effIou (gts : List Box) (pred : Box) (predIdx : Nat) (coco : Bool)
    (ious : Option Cache) (i : Nat) : Option ℚ :=
  match ious with
  | none => calculate_iou (gts.getD i box0) pred coco
  | some m =>
    if m i predIdx < 0 then calculate_iou (gts.getD i box0) pred coco
    else some (m i predIdx)

/-- Row `j` is a qualifying candidate for the current prediction: in range,
not yet marked matched, and its effective IoU reaches the threshold. -/
def QualCand (gts : List Box) (pred : Box) (predIdx : Nat) (coco : Bool)
    (ious : Option Cache) (threshold : ℚ) (j : Nat) (w : ℚ) : Prop :=
  j < gts.length ∧ ¬ (gts.getD j box0).c0 < 0 ∧
    effIou gts pred predIdx coco ious j = some w ∧ threshold ≤ w

/-- Cache-free rendering of the `find_best_match` loop, with the effective
IoU abstracted into `eff`. -/
def fbmPure (gts : List Box) (eff : Nat → Option ℚ) (thr : ℚ) :
    Nat → Nat → Option ℚ × Int → Option Int
  | 0, _, acc => some acc.2
  | n + 1, i, acc =>
    if (gts.getD i box0).c0 < 0 then fbmPure gts eff thr n (i + 1) acc
    else
      match eff i with
      | none => none
      | some iou => fbmPure gts eff thr n (i + 1) (fbmStep thr acc i iou)

/-- The qualifying `(index, effective IoU)` pairs among rows `i, …, i+n-1`,
in index order. -/
def qualPairs (gts : List Box) (eff : Nat → Option ℚ) (thr : ℚ) :
    Nat → Nat → List (Nat × ℚ)
  | 0, _ => []
  | n + 1, i =>
    if (gts.getD i box0).c0 < 0 then qualPairs gts eff thr n (i + 1)
    else
      match eff i with
      | none => qualPairs gts eff thr n (i + 1)
      | some iou =>
        if iou < thr then qualPairs gts eff thr n (i + 1)
        else (i, iou) :: qualPairs gts eff thr n (i + 1)

/-- Left-to-right selection of the best pair, strict improvement only: the
accumulator form of the loop's `best` bookkeeping. -/
def selBest : List (Nat × ℚ) → Option ℚ × Int → Int
  | [], acc => acc.2
  | (i, v) :: rest, acc =>
    match acc.1 with
    | none => selBest rest (some v, Int.ofNat i)
    | some bv => if bv < v then selBest rest (some v, Int.ofNat i) else selBest rest acc

/-- Cache agreement from row `i` on: the caches have the same shape
(`none`/`some`) and agree on every cell `(j, predIdx)` with `j ≥ i`. -/
def AgreeFrom (predIdx : Nat) (m0 m : Option Cache) (i : Nat) : Prop :=
  match m0, m with
  | none, none => True
  | some c0, some c => ∀ j, i ≤ j → c j predIdx = c0 j predIdx
  | _, _ => False

lemma calculate_iou_pascal (gt pr : Box) : calculate_iou gt pr false = iouCorners gt pr := rfl

lemma iouCorners_valid_ne_none (g p : Box) (hg : ValidBox g) (hp : ValidBox p) :
    iouCorners g p ≠ none := by
  obtain ⟨hg1, hg2⟩ := hg
  obtain ⟨hp1, hp2⟩ := hp
  unfold iouCorners
  split_ifs with h1 h2 h3
  · simp
  · simp
  · exfalso
    have d1 : min g.c2 p.c2 - max g.c0 p.c0 + 1 ≤ g.c2 - g.c0 + 1 := by
      have := min_le_left g.c2 p.c2
      have := le_max_left g.c0 p.c0
      linarith
    have d2 : min g.c3 p.c3 - max g.c1 p.c1 + 1 ≤ g.c3 - g.c1 + 1 := by
      have := min_le_left g.c3 p.c3
      have := le_max_left g.c1 p.c1
      linarith
    have hd1 : 0 ≤ min g.c2 p.c2 - max g.c0 p.c0 + 1 := by linarith [not_lt.mp h1]
    have hd2 : 0 ≤ min g.c3 p.c3 - max g.c1 p.c1 + 1 := by linarith [not_lt.mp h2]
    have hover : (min g.c2 p.c2 - max g.c0 p.c0 + 1) * (min g.c3 p.c3 - max g.c1 p.c1 + 1) ≤
        (g.c2 - g.c0 + 1) * (g.c3 - g.c1 + 1) := by
      have hw : (0:ℚ) ≤ g.c3 - g.c1 + 1 := by linarith
      exact mul_le_mul d1 d2 hd2 (by linarith)
    have hparea : (1:ℚ) ≤ (p.c2 - p.c0 + 1) * (p.c3 - p.c1 + 1) := by
      nlinarith
    exact absurd h3 (by nlinarith)
  · simp

lemma iouCorners_nonpos_extent (g p : Box) (hg : ValidBox g) (hp : ValidBox p)
    (h : min g.c2 p.c2 - max g.c0 p.c0 + 1 ≤ 0 ∨ min g.c3 p.c3 - max g.c1 p.c1 + 1 ≤ 0) :
    iouCorners g p = some 0 := by
  obtain ⟨hg1, hg2⟩ := hg
  obtain ⟨hp1, hp2⟩ := hp
  unfold iouCorners
  split_ifs with h1 h2 h3
  · rfl
  · rfl
  · exfalso
    have hdx0 : min g.c2 p.c2 - max g.c0 p.c0 + 1 = 0 ∨
        min g.c3 p.c3 - max g.c1 p.c1 + 1 = 0 := by
      rcases h with h | h
      · exact Or.inl (le_antisymm h (not_lt.mp h1))
      · exact Or.inr (le_antisymm h (not_lt.mp h2))
    have hov : (min g.c2 p.c2 - max g.c0 p.c0 + 1) * (min g.c3 p.c3 - max g.c1 p.c1 + 1) = 0 := by
      rcases hdx0 with h0 | h0 <;> rw [h0] <;> ring
    rw [hov] at h3
    nlinarith
  · have hdx0 : min g.c2 p.c2 - max g.c0 p.c0 + 1 = 0 ∨
        min g.c3 p.c3 - max g.c1 p.c1 + 1 = 0 := by
      rcases h with h | h
      · exact Or.inl (le_antisymm h (not_lt.mp h1))
      · exact Or.inr (le_antisymm h (not_lt.mp h2))
    have hov : (min g.c2 p.c2 - max g.c0 p.c0 + 1) * (min g.c3 p.c3 - max g.c1 p.c1 + 1) = 0 := by
      rcases hdx0 with h0 | h0 <;> rw [h0] <;> ring
    rw [hov, zero_div]

/-- C2: for two valid boxes whose inclusive intersection extent is zero or
negative in either axis, `calculate_iou` returns exactly `0.0`.  A strictly
negative extent short-circuits; a zero extent falls through to the division,
whose numerator is then `0` while the union of two valid boxes is positive,
so the result is again exactly `0`. -/
theorem calculate_iou_zero_on_nonpos_extent (gt pr : Box) (hg : ValidBox gt) (hp : ValidBox pr)
    (h : min gt.c2 pr.c2 - max gt.c0 pr.c0 + 1 ≤ 0 ∨
      min gt.c3 pr.c3 - max gt.c1 pr.c1 + 1 ≤ 0) :
    calculate_iou gt pr false = some 0 := by
  rw [calculate_iou_pascal]
  exact iouCorners_nonpos_extent gt pr hg hp h

/-- Witness for C2 at a concrete input: `[0,0,1,1]` and `[5,5,6,6]` are valid
and horizontally disjoint (`dx = 1 - 5 + 1 = -3 ≤ 0`), and the IoU is `0`. -/
theorem calculate_iou_zero_on_nonpos_extent_witness :
    ValidBox ⟨0, 0, 1, 1⟩ ∧ ValidBox ⟨5, 5, 6, 6⟩ ∧
      min (1:ℚ) 6 - max 0 5 + 1 ≤ 0 ∧
      calculate_iou ⟨0, 0, 1, 1⟩ ⟨5, 5, 6, 6⟩ false = some 0 :=
  ⟨⟨by norm_num, by norm_num⟩, ⟨by norm_num, by norm_num⟩, by norm_num,
    calculate_iou_zero_on_nonpos_extent ⟨0, 0, 1, 1⟩ ⟨5, 5, 6, 6⟩
      ⟨by norm_num, by norm_num⟩ ⟨by norm_num, by norm_num⟩ (Or.inl (by norm_num))⟩

/-- C3 counterexample: the division of `calculate_iou` is not guarded.  On
the degenerate input `gt = pr = [0, 0, -1, 0]` both intersection extents are
nonnegative (`dx = 0`, `dy = 1`), both box areas are `0`, so the union is
`0` and the function reaches the division `0/0`, a runtime fault (`none`) —
it does not return `0.0`. -/
theorem calculate_iou_union_zero_faults :
    calculate_iou ⟨0, 0, -1, 0⟩ ⟨0, 0, -1, 0⟩ false = none := by
  norm_num [calculate_iou, iouCorners, min_def, max_def]

/-- C3 amended: there is no explicit union guard, but for valid boxes the
union is always strictly positive, so the division of `calculate_iou` never
divides by zero on valid inputs (the fault is reachable only for degenerate
boxes with `max < min`). -/
theorem calculate_iou_valid_no_fault (gt pr : Box) (hg : ValidBox gt) (hp : ValidBox pr) :
    calculate_iou gt pr false ≠ none := by
  rw [calculate_iou_pascal]
  exact iouCorners_valid_ne_none gt pr hg hp

/-- Witness for the amended C3 at a concrete input: two valid overlapping
boxes, on which `calculate_iou` does not fault. -/
theorem calculate_iou_valid_no_fault_witness :
    ValidBox ⟨0, 0, 2, 2⟩ ∧ ValidBox ⟨1, 1, 3, 3⟩ ∧
      calculate_iou ⟨0, 0, 2, 2⟩ ⟨1, 1, 3, 3⟩ false ≠ none :=
  ⟨⟨by norm_num, by norm_num⟩, ⟨by norm_num, by norm_num⟩,
    calculate_iou_valid_no_fault ⟨0, 0, 2, 2⟩ ⟨1, 1, 3, 3⟩
      ⟨by norm_num, by norm_num⟩ ⟨by norm_num, by norm_num⟩⟩

/-- C4 counterexample: with empty ground-truth and prediction lists,
`calculate_precision` reaches `tp / (tp + fp + fn)` with `tp = fp = fn = 0`
and the `0/0` division raises (modelled `none`); no special-case value is
returned. -/
theorem calculate_precision_empty_empty_counterexample :
    calculate_precision ([] : List Box) [] (1/2) false (some fun _ _ => -1) = none := rfl

/-- C4 amended: for every threshold, box format and cache state,
`calculate_precision` on two empty lists reaches the precision division with
denominator `0` and propagates the `0/0` runtime fault; the combination is
not handled as a designed special case. -/
theorem calculate_precision_empty_empty_faults (threshold : ℚ) (coco : Bool)
    (ious : Option Cache) :
    calculate_precision ([] : List Box) [] threshold coco ious = none := rfl

/-- C10: the false-negative count of `calculate_precision` is
`(gts.sum(axis=1) > 0).sum()`, a count of rows with strictly positive
coordinate sum, so the unmatched ground-truth box `[0,0,0,0]` contributes no
false negative: with `gts = [[0,0,9,9],[0,0,0,0]]` and the single prediction
`[0,0,9,9]` the result is `1/(1+0+0) = 1`, not `1/(1+0+1)`. -/
theorem fn_ignores_zero_sum_box :
    calculate_precision [⟨0, 0, 9, 9⟩, ⟨0, 0, 0, 0⟩] [⟨0, 0, 9, 9⟩] (1/2) false
        (some fun _ _ => -1) = some 1 ∧
      fnCount [⟨0, 0, 0, 0⟩] = 0 := by
  constructor
  · norm_num [calculate_precision, calculate_precision_full, cpGo, find_best_match, fbmGo,
      fbmStep, calculate_iou, iouCorners, cacheSet, fnCount, box0, List.getD, min_def,
      max_def, List.set]
  · norm_num [fnCount]

lemma cpGo_counts (threshold : ℚ) (coco : Bool) :
    ∀ (preds gts : List Box) (predIdx : Nat) (ious : Option Cache) (tp fp : Nat)
      (s : MatchState), cpGo threshold coco gts preds predIdx ious tp fp = some s →
      s.tp = tp + s.trace.length ∧ s.tp + s.fp = tp + fp + preds.length := by
  intro preds
  induction preds with
  | nil =>
    intro gts predIdx ious tp fp s h
    simp only [cpGo, Option.some.injEq] at h
    subst h
    simp
  | cons pred rest ih =>
    intro gts predIdx ious tp fp s h
    simp only [cpGo] at h
    cases hf : find_best_match gts pred predIdx threshold coco ious with
    | none => rw [hf] at h; exact absurd h (by simp)
    | some rc =>
      obtain ⟨r, ious1⟩ := rc
      rw [hf] at h
      dsimp only at h
      by_cases hr : 0 ≤ r
      · rw [if_pos hr] at h
        cases hrec : cpGo threshold coco (gts.set r.toNat ⟨-1, -1, -1, -1⟩) rest
            (predIdx + 1) ious1 (tp + 1) fp with
        | none => rw [hrec] at h; exact absurd h (by simp)
        | some s1 =>
          rw [hrec] at h
          simp only [Option.some.injEq] at h
          subst h
          obtain ⟨h1, h2⟩ := ih _ _ _ _ _ _ hrec
          constructor
          · simpa [Nat.add_comm, Nat.add_assoc, Nat.add_left_comm] using h1
          · simpa [Nat.add_comm, Nat.add_assoc, Nat.add_left_comm] using h2
      · rw [if_neg hr] at h
        obtain ⟨h1, h2⟩ := ih _ _ _ _ _ _ h
        refine ⟨h1, ?_⟩
        simp only [List.length_cons]
        omega

/-- C1 amended: `calculate_precision` returns `tp / (tp + fp + fn)` where
`tp` counts the predictions greedily matched to a ground-truth box (the
length of the match trace), `fp = len(preds) - tp` counts unmatched
predictions, and `fn` counts the ground-truth rows of the final state whose
coordinate sum is strictly positive — i.e. unmatched boxes of positive
coordinate sum, not every unmatched box.  When `tp + fp + fn = 0` the
division `0/0` raises instead (`none`). -/
theorem calculate_precision_formula (gts preds : List Box) (threshold : ℚ) (coco : Bool)
    (ious : Option Cache) (g : List Box) (tp fp : Nat) (tr : List Nat)
    (h : cpRun gts preds threshold coco ious = some (g, tp, fp, tr)) :
    tp = tr.length ∧ tp + fp = preds.length ∧
      calculate_precision gts preds threshold coco ious =
        (if tp + fp + fnCount g = 0 then none
         else some ((tp : ℚ) / ((tp : ℚ) + (fp : ℚ) + (fnCount g : ℚ)))) := by
  simp only [cpRun, Option.map_eq_some'] at h
  obtain ⟨s, hs, hproj⟩ := h
  simp only [Prod.mk.injEq] at hproj
  obtain ⟨hg, htp, hfp, htr⟩ := hproj
  subst hg htp hfp htr
  obtain ⟨h1, h2⟩ := cpGo_counts threshold coco preds gts 0 ious 0 0 s hs
  refine ⟨by omega, by omega, ?_⟩
  simp only [calculate_precision, calculate_precision_full, hs]
  by_cases hz : s.tp + s.fp + fnCount s.gts = 0
  · simp [hz]
  · simp [hz]

/-- Witness for the amended C1: on `gts = [[0,0,4,4],[10,10,14,14]]` and the
single prediction `[0,0,4,4]` the pass matches ground truth `0`
(`tp = 1 = trace length`, `fp = 0`), one positive-sum row survives
(`fn = 1`), and the returned precision is `1/2`. -/
theorem calculate_precision_formula_witness :
    cpRun [⟨0, 0, 4, 4⟩, ⟨10, 10, 14, 14⟩] [⟨0, 0, 4, 4⟩] (1/2) false (some fun _ _ => -1) =
        some ([⟨-1, -1, -1, -1⟩, ⟨10, 10, 14, 14⟩], 1, 0, [0]) ∧
      1 = [0].length ∧ 1 + 0 = [(⟨0, 0, 4, 4⟩ : Box)].length ∧
      calculate_precision [⟨0, 0, 4, 4⟩, ⟨10, 10, 14, 14⟩] [⟨0, 0, 4, 4⟩] (1/2) false
          (some fun _ _ => -1) =
        (if 1 + 0 + fnCount [⟨-1, -1, -1, -1⟩, ⟨10, 10, 14, 14⟩] = 0 then none
         else some ((1 : ℚ) / ((1 : ℚ) + (0 : ℚ) + (fnCount [⟨-1, -1, -1, -1⟩,
           ⟨10, 10, 14, 14⟩] : ℚ)))) := by
  have hrun : cpRun [⟨0, 0, 4, 4⟩, ⟨10, 10, 14, 14⟩] [⟨0, 0, 4, 4⟩] (1/2) false
      (some fun _ _ => -1) = some ([⟨-1, -1, -1, -1⟩, ⟨10, 10, 14, 14⟩], 1, 0, [0]) := by
    norm_num [cpRun, cpGo, find_best_match, fbmGo, fbmStep, calculate_iou, iouCorners,
      cacheSet, box0, List.getD, min_def, max_def, List.set]
  exact ⟨hrun, calculate_precision_formula _ _ _ _ _ _ _ _ _ hrun⟩

/-- C1 counterexample: with `gts = [[0,0,10,10],[0,0,0,0]]`, the single
prediction `[0,0,10,10]` matches ground truth `0`, leaving box `[0,0,0,0]`
unmatched; the claim's formula `tp/(tp+fp+fn)` with `fn` = "ground-truth
boxes left unmatched" would give `1/(1+0+1) = 1/2`, but the code counts no
false negative for the zero-sum row and returns `1`. -/
theorem calculate_precision_unmatched_not_counted :
    calculate_precision [⟨0, 0, 10, 10⟩, ⟨0, 0, 0, 0⟩] [⟨0, 0, 10, 10⟩] (1/2) false
        (some fun _ _ => -1) = some 1 ∧
      (1 : ℚ) ≠ 1 / (1 + 0 + 1) := by
  constructor
  · norm_num [calculate_precision, calculate_precision_full, cpGo, find_best_match, fbmGo,
      fbmStep, calculate_iou, iouCorners, cacheSet, fnCount, box0, List.getD, min_def,
      max_def, List.set]
  · norm_num

lemma getD_set_ne (l : List Box) (m j : Nat) (a d : Box) (h : m ≠ j) :
    (l.set m a).getD j d = l.getD j d := by
  simp [List.getD, List.getElem?_set_ne h]

lemma getD_set_self (l : List Box) (k : Nat) (a d : Box) (h : k < l.length) :
    (l.set k a).getD k d = a := by
  simp [List.getD, List.getElem?_set_self, h]

lemma fbmStep_inv (threshold : ℚ) (acc : Option ℚ × Int) (i : Nat) (iou : ℚ)
    (P : Nat → Prop) (hacc : ∀ k : Nat, acc.2 = Int.ofNat k → P k) (hi : P i) :
    ∀ k : Nat, (fbmStep threshold acc i iou).2 = Int.ofNat k → P k := by
  intro k hk
  unfold fbmStep at hk
  split_ifs at hk
  · exact hacc k hk
  · cases hb : acc.1 with
    | none =>
      rw [hb] at hk
      dsimp only at hk
      have hik : i = k := Int.ofNat.inj hk
      exact hik ▸ hi
    | some bv =>
      rw [hb] at hk
      dsimp only at hk
      split_ifs at hk
      · dsimp only at hk
        have hik : i = k := Int.ofNat.inj hk
        exact hik ▸ hi
      · exact hacc k hk

lemma fbmGo_best_inv (gts : List Box) (pred : Box) (predIdx : Nat) (threshold : ℚ)
    (coco : Bool) :
    ∀ (n i : Nat) (ious : Option Cache) (acc : Option ℚ × Int) (r : Int)
      (c : Option Cache), i + n ≤ gts.length →
      (∀ k : Nat, acc.2 = Int.ofNat k → k < gts.length ∧ ¬ (gts.getD k box0).c0 < 0) →
      fbmGo gts pred predIdx threshold coco n i ious acc = some (r, c) →
      ∀ k : Nat, r = Int.ofNat k → k < gts.length ∧ ¬ (gts.getD k box0).c0 < 0 := by
  intro n
  induction n with
  | zero =>
    intro i ious acc r c _ hacc h
    simp only [fbmGo, Option.some.injEq, Prod.mk.injEq] at h
    obtain ⟨h1, _⟩ := h
    exact h1 ▸ hacc
  | succ n ih =>
    intro i ious acc r c hlen hacc h
    simp only [fbmGo] at h
    by_cases hrow : (gts.getD i box0).c0 < 0
    · rw [if_pos hrow] at h
      exact ih (i + 1) ious acc r c (by omega) hacc h
    · rw [if_neg hrow] at h
      have hstep : ∀ v : ℚ, ∀ k : Nat, (fbmStep threshold acc i v).2 = Int.ofNat k →
          k < gts.length ∧ ¬ (gts.getD k box0).c0 < 0 := fun v =>
        fbmStep_inv threshold acc i v _ hacc ⟨by omega, hrow⟩
      cases hio : ious with
      | none =>
        rw [hio] at h
        cases hv : calculate_iou (gts.getD i box0) pred coco with
        | none => rw [hv] at h; exact absurd h (by simp)
        | some v =>
          rw [hv] at h
          exact ih (i + 1) none _ r c (by omega) (hstep v) h
      | some m =>
        rw [hio] at h
        dsimp only at h
        by_cases hc : m i predIdx < 0
        · rw [if_pos hc] at h
          cases hv : calculate_iou (gts.getD i box0) pred coco with
          | none => rw [hv] at h; exact absurd h (by simp)
          | some v =>
            rw [hv] at h
            exact ih (i + 1) _ _ r c (by omega) (hstep v) h
        · rw [if_neg hc] at h
          exact ih (i + 1) _ _ r c (by omega) (hstep (m i predIdx)) h

lemma find_best_match_inv (gts : List Box) (pred : Box) (predIdx : Nat) (threshold : ℚ)
    (coco : Bool) (ious : Option Cache) (r : Int) (c : Option Cache)
    (h : find_best_match gts pred predIdx threshold coco ious = some (r, c)) :
    ∀ k : Nat, r = Int.ofNat k → k < gts.length ∧ ¬ (gts.getD k box0).c0 < 0 := by
  refine fbmGo_best_inv gts pred predIdx threshold coco gts.length 0 ious (none, -1) r c
    (by omega) ?_ h
  intro k hk
  exfalso
  simp only at hk
  have h2 : (-1 : Int) = (k : Int) := by exact_mod_cast hk
  omega

lemma cpGo_trace_fresh (threshold : ℚ) (coco : Bool) :
    ∀ (preds gts : List Box) (predIdx : Nat) (ious : Option Cache) (tp fp : Nat)
      (s : MatchState), cpGo threshold coco gts preds predIdx ious tp fp = some s →
      (∀ j ∈ s.trace, j < gts.length ∧ ¬ (gts.getD j box0).c0 < 0) ∧ s.trace.Nodup := by
  intro preds
  induction preds with
  | nil =>
    intro gts predIdx ious tp fp s h
    simp only [cpGo, Option.some.injEq] at h
    subst h
    simp
  | cons pred rest ih =>
    intro gts predIdx ious tp fp s h
    simp only [cpGo] at h
    cases hf : find_best_match gts pred predIdx threshold coco ious with
    | none => rw [hf] at h; exact absurd h (by simp)
    | some rc =>
      obtain ⟨r, ious1⟩ := rc
      rw [hf] at h
      dsimp only at h
      by_cases hr : 0 ≤ r
      · rw [if_pos hr] at h
        cases hrec : cpGo threshold coco (gts.set r.toNat ⟨-1, -1, -1, -1⟩) rest
            (predIdx + 1) ious1 (tp + 1) fp with
        | none => rw [hrec] at h; exact absurd h (by simp)
        | some s1 =>
          rw [hrec] at h
          simp only [Option.some.injEq] at h
          subst h
          obtain ⟨hmem, hnd⟩ := ih _ _ _ _ _ _ hrec
          have hrinv := find_best_match_inv gts pred predIdx threshold coco ious r ious1 hf
          have hrk : r = Int.ofNat r.toNat := (Int.toNat_of_nonneg hr).symm
          obtain ⟨hrlen, hrrow⟩ := hrinv r.toNat hrk
          have hne : ∀ j ∈ s1.trace, j ≠ r.toNat := by
            intro j hj hcontra
            obtain ⟨_, hrow⟩ := hmem j hj
            rw [hcontra] at hrow
            exact hrow (by
              rw [getD_set_self gts r.toNat ⟨-1, -1, -1, -1⟩ box0 hrlen]
              norm_num)
          refine ⟨?_, ?_⟩
          · intro j hj
            simp only [List.mem_cons] at hj
            rcases hj with hj | hj
            · exact hj ▸ ⟨hrlen, hrrow⟩
            · obtain ⟨hjl, hjrow⟩ := hmem j hj
              rw [List.length_set] at hjl
              refine ⟨hjl, ?_⟩
              rwa [getD_set_ne gts r.toNat j ⟨-1, -1, -1, -1⟩ box0
                (fun hx => hne j hj hx.symm)] at hjrow
          · simp only [List.nodup_cons]
            exact ⟨fun hc => hne r.toNat hc rfl, hnd⟩
      · rw [if_neg hr] at h
        exact ih _ _ _ _ _ _ h

/-- C6: within a single `calculate_precision` pass, a ground-truth box
matched to some prediction is never returned as a match for a later
prediction: every matched index in the pass's match trace is distinct
(matching marks the row `-1` and `find_best_match` skips marked rows). -/
theorem matched_gt_not_rematched (gts preds : List Box) (threshold : ℚ) (coco : Bool)
    (ious : Option Cache) (g : List Box) (tp fp : Nat) (tr : List Nat)
    (h : cpRun gts preds threshold coco ious = some (g, tp, fp, tr)) : tr.Nodup := by
  simp only [cpRun, Option.map_eq_some'] at h
  obtain ⟨s, hs, hproj⟩ := h
  simp only [Prod.mk.injEq] at hproj
  obtain ⟨_, _, _, htr⟩ := hproj
  exact htr ▸ (cpGo_trace_fresh threshold coco preds gts 0 ious 0 0 s hs).2

/-- Witness for C6: a two-prediction pass on one ground-truth box matches it
for the first prediction only (`trace = [0]`, second prediction is a false
positive because the marked row is skipped), and the trace has no
duplicates. -/
theorem matched_gt_not_rematched_witness :
    cpRun [⟨0, 0, 9, 9⟩] [⟨0, 0, 9, 9⟩, ⟨0, 0, 9, 9⟩] (1/2) false (some fun _ _ => -1) =
        some ([⟨-1, -1, -1, -1⟩], 1, 1, [0]) ∧
      ([0] : List Nat).Nodup := by
  have hrun : cpRun [⟨0, 0, 9, 9⟩] [⟨0, 0, 9, 9⟩, ⟨0, 0, 9, 9⟩] (1/2) false
      (some fun _ _ => -1) = some ([⟨-1, -1, -1, -1⟩], 1, 1, [0]) := by
    norm_num [cpRun, cpGo, find_best_match, fbmGo, fbmStep, calculate_iou, iouCorners,
      cacheSet, box0, List.getD, min_def, max_def, List.set]
  exact ⟨hrun, matched_gt_not_rematched _ _ _ _ _ _ _ _ _ hrun⟩

lemma cipGo_preserves_gts (gts preds : List Box) (coco : Bool) (nthr : Nat) :
    ∀ (ts : List ℚ) (ious : Option Cache) (acc p : ℚ) (g : List Box),
      cipGo gts preds coco nthr ts ious acc = some (p, g) → g = gts := by
  intro ts
  induction ts with
  | nil =>
    intro ious acc p g h
    simp only [cipGo, Option.some.injEq, Prod.mk.injEq] at h
    exact h.2.symm
  | cons t rest ih =>
    intro ious acc p g h
    simp only [cipGo] at h
    cases hcp : calculate_precision_full gts preds t coco ious with
    | none => rw [hcp] at h; exact absurd h (by simp)
    | some ps =>
      obtain ⟨q, s⟩ := ps
      rw [hcp] at h
      exact ih _ _ _ _ h

/-- C8: `calculate_image_precision` leaves the caller's ground-truth array
unchanged.  Each threshold pass runs `calculate_precision` on `gts.copy()`
(the destructive marking happens on that copy, whose mutated final rows are
discarded), so the array the caller holds after the call equals its value
before the call. -/
theorem image_precision_gts_unchanged (gts preds : List Box) (thresholds : List ℚ)
    (coco : Bool) (p : ℚ) (g : List Box)
    (h : calculate_image_precision_full gts preds thresholds coco = some (p, g)) :
    g = gts :=
  cipGo_preserves_gts gts preds coco thresholds.length thresholds _ _ _ _ h

/-- Witness for C8: a two-threshold run whose matching pass mutates the
working copy (the prediction matches at threshold `1/2`), after which the
caller's ground-truth list is returned unchanged. -/
theorem image_precision_gts_unchanged_witness :
    calculate_image_precision_full [⟨0, 0, 4, 4⟩] [⟨0, 0, 4, 4⟩] [1/2, 3/4] false =
        some (1, [⟨0, 0, 4, 4⟩]) ∧
      ([⟨0, 0, 4, 4⟩] : List Box) = [⟨0, 0, 4, 4⟩] := by
  have hrun : calculate_image_precision_full [⟨0, 0, 4, 4⟩] [⟨0, 0, 4, 4⟩] [1/2, 3/4] false =
      some (1, [⟨0, 0, 4, 4⟩]) := by
    norm_num [calculate_image_precision_full, cipGo, calculate_precision_full, cpGo,
      find_best_match, fbmGo, fbmStep, calculate_iou, iouCorners, cacheSet, fnCount, box0,
      List.getD, min_def, max_def, List.set]
  exact ⟨hrun, image_precision_gts_unchanged _ _ _ _ _ _ hrun⟩

/-- C7: `calculate_image_precision` with the single-element threshold list
`[t]` returns exactly `calculate_precision` at threshold `t` on the same
ground-truth list with the freshly allocated all-`-1` IoU cache: the single
pass contributes `0 + precision / 1`. -/
theorem image_precision_singleton (gts preds : List Box) (t : ℚ) (coco : Bool) :
    calculate_image_precision gts preds [t] coco =
      calculate_precision gts preds t coco (some fun _ _ => -1) := by
  simp only [calculate_image_precision, calculate_image_precision_full, cipGo,
    calculate_precision, List.length_singleton]
  cases hcp : calculate_precision_full gts preds t coco (some fun _ _ => -1) with
  | none => simp
  | some ps =>
    obtain ⟨q, s⟩ := ps
    simp [cipGo]

lemma agreeFrom_refl (predIdx : Nat) (m : Option Cache) (i : Nat) :
    AgreeFrom predIdx m m i := by
  cases m with
  | none => trivial
  | some c => intro j _; rfl

lemma agreeFrom_mono (predIdx : Nat) (m0 m : Option Cache) (i : Nat)
    (h : AgreeFrom predIdx m0 m i) : AgreeFrom predIdx m0 m (i + 1) := by
  cases m0 with
  | none => cases m with
    | none => trivial
    | some c => exact h.elim
  | some c0 => cases m with
    | none => exact h.elim
    | some c => exact fun j hj => h j (by omega)

lemma agreeFrom_set (predIdx : Nat) (c0 c : Cache) (i : Nat) (v : ℚ)
    (h : AgreeFrom predIdx (some c0) (some c) i) :
    AgreeFrom predIdx (some c0) (some (cacheSet c i predIdx v)) (i + 1) := by
  intro j hj
  have hji : j ≠ i := by omega
  simp only [cacheSet, hji, false_and, if_false]
  exact h j (by omega)

lemma fbmGo_eq_fbmPure (gts : List Box) (pred : Box) (predIdx : Nat) (threshold : ℚ)
    (coco : Bool) (ious0 : Option Cache) :
    ∀ (n i : Nat) (ious : Option Cache) (acc : Option ℚ × Int),
      AgreeFrom predIdx ious0 ious i →
      (fbmGo gts pred predIdx threshold coco n i ious acc).map Prod.fst =
        fbmPure gts (effIou gts pred predIdx coco ious0) threshold n i acc := by
  intro n
  induction n with
  | zero => intro i ious acc _; simp [fbmGo, fbmPure]
  | succ n ih =>
    intro i ious acc hag
    by_cases hrow : (gts.getD i box0).c0 < 0
    · simp only [fbmGo, fbmPure, if_pos hrow]
      exact ih (i + 1) ious acc (agreeFrom_mono predIdx ious0 ious i hag)
    · simp only [fbmGo, fbmPure, if_neg hrow]
      cases hio : ious with
      | none =>
        have h0 : ious0 = none := by
          cases h00 : ious0 with
          | none => rfl
          | some c0 => rw [hio, h00] at hag; exact hag.elim
        have heff : effIou gts pred predIdx coco ious0 i =
            calculate_iou (gts.getD i box0) pred coco := by
          rw [h0]; rfl
        rw [heff]
        cases hv : calculate_iou (gts.getD i box0) pred coco with
        | none => simp
        | some v =>
          dsimp only
          exact ih (i + 1) none _ (h0 ▸ agreeFrom_refl predIdx none (i + 1))
      | some m =>
        cases h00 : ious0 with
        | none => rw [hio, h00] at hag; exact hag.elim
        | some c0 =>
          subst h00
          rw [hio] at hag
          dsimp only
          have hcell : m i predIdx = c0 i predIdx := hag i (le_refl i)
          have heff : effIou gts pred predIdx coco (some c0) i =
              (if c0 i predIdx < 0 then calculate_iou (gts.getD i box0) pred coco
               else some (c0 i predIdx)) := rfl
          rw [heff]
          by_cases hc : m i predIdx < 0
          · rw [if_pos hc, if_pos (hcell ▸ hc)]
            cases hv : calculate_iou (gts.getD i box0) pred coco with
            | none => simp
            | some v =>
              dsimp only
              exact ih (i + 1) (some (cacheSet m i predIdx v)) _
                (agreeFrom_set predIdx c0 m i v hag)
          · rw [if_neg hc, if_neg (hcell ▸ hc)]
            dsimp only
            rw [hcell]
            exact ih (i + 1) (some m) _
              (agreeFrom_mono predIdx (some c0) (some m) i hag)

lemma fbmPure_eq_selBest (gts : List Box) (eff : Nat → Option ℚ) (thr : ℚ) :
    ∀ (n i : Nat) (acc : Option ℚ × Int),
      (∀ j, i ≤ j → j < i + n → ¬ (gts.getD j box0).c0 < 0 → eff j ≠ none) →
      fbmPure gts eff thr n i acc = some (selBest (qualPairs gts eff thr n i) acc) := by
  intro n
  induction n with
  | zero => intro i acc _; simp [fbmPure, qualPairs, selBest]
  | succ n ih =>
    intro i acc hnf
    have hnf1 : ∀ j, i + 1 ≤ j → j < (i + 1) + n → ¬ (gts.getD j box0).c0 < 0 →
        eff j ≠ none := fun j h1 h2 => hnf j (by omega) (by omega)
    by_cases hrow : (gts.getD i box0).c0 < 0
    · simp only [fbmPure, qualPairs, if_pos hrow]
      exact ih (i + 1) acc hnf1
    · simp only [fbmPure, qualPairs, if_neg hrow]
      cases hv : eff i with
      | none => exact absurd hv (hnf i (le_refl i) (by omega) hrow)
      | some iou =>
        dsimp only
        by_cases hthr : iou < thr
        · rw [if_pos hthr]
          have hstep : fbmStep thr acc i iou = acc := by
            simp [fbmStep, if_pos hthr]
          rw [hstep]
          exact ih (i + 1) acc hnf1
        · rw [if_neg hthr]
          have hstep : fbmStep thr acc i iou =
              (match acc.1 with
               | none => (some iou, Int.ofNat i)
               | some bv => if bv < iou then (some iou, Int.ofNat i) else acc) := by
            simp [fbmStep, if_neg hthr]
          rw [hstep]
          cases hb : acc.1 with
          | none =>
            have hsel : selBest ((i, iou) :: qualPairs gts eff thr n (i + 1)) acc =
                selBest (qualPairs gts eff thr n (i + 1)) (some iou, Int.ofNat i) := by
              simp [selBest, hb]
            rw [hsel]
            exact ih (i + 1) (some iou, Int.ofNat i) hnf1
          | some bv =>
            by_cases hbv : bv < iou
            · have hsel : selBest ((i, iou) :: qualPairs gts eff thr n (i + 1)) acc =
                  selBest (qualPairs gts eff thr n (i + 1)) (some iou, Int.ofNat i) := by
                simp [selBest, hb, if_pos hbv]
              rw [hsel]
              dsimp only
              rw [if_pos hbv]
              exact ih (i + 1) (some iou, Int.ofNat i) hnf1
            · have hsel : selBest ((i, iou) :: qualPairs gts eff thr n (i + 1)) acc =
                  selBest (qualPairs gts eff thr n (i + 1)) acc := by
                simp [selBest, hb, if_neg hbv]
              rw [hsel]
              dsimp only
              rw [if_neg hbv]
              exact ih (i + 1) acc hnf1

lemma selBest_go (pairs : List (Nat × ℚ)) :
    ∀ (bv : ℚ) (bj : Nat),
      List.Pairwise (· < ·) (bj :: pairs.map Prod.fst) →
      ∃ j w, selBest pairs (some bv, Int.ofNat bj) = Int.ofNat j ∧
        (j, w) ∈ (bj, bv) :: pairs ∧
        (∀ p ∈ (bj, bv) :: pairs, p.2 ≤ w) ∧
        (∀ p ∈ (bj, bv) :: pairs, p.2 = w → j ≤ p.1) := by
  induction pairs with
  | nil =>
    intro bv bj _
    refine ⟨bj, bv, rfl, by simp, ?_, ?_⟩
    · intro p hp
      simp only [List.mem_singleton] at hp
      simp [hp]
    · intro p hp _
      simp only [List.mem_singleton] at hp
      simp [hp]
  | cons q rest ih =>
    obtain ⟨i, v⟩ := q
    intro bv bj hpw
    simp only [List.map_cons, List.pairwise_cons] at hpw
    obtain ⟨hbj, hpw1⟩ := hpw
    have hbji : bj < i := hbj i (by simp)
    by_cases hbv : bv < v
    · have hsel : selBest ((i, v) :: rest) (some bv, Int.ofNat bj) =
          selBest rest (some v, Int.ofNat i) := by
        simp [selBest, if_pos hbv]
      rw [hsel]
      have hpw2 : List.Pairwise (· < ·) (i :: rest.map Prod.fst) := by
        rw [List.pairwise_cons]
        exact ⟨fun b hb => (hpw1.1 b hb), hpw1.2⟩
      obtain ⟨j, w, hj1, hj2, hj3, hj4⟩ := ih v i hpw2
      have hvw : v ≤ w := hj3 (i, v) (by simp)
      refine ⟨j, w, hj1, ?_, ?_, ?_⟩
      · simp only [List.mem_cons] at hj2 ⊢
        tauto
      · intro p hp
        simp only [List.mem_cons] at hp
        rcases hp with hp | hp
        · subst hp; dsimp only; linarith
        · exact hj3 p (by simp [hp])
      · intro p hp hpw0
        simp only [List.mem_cons] at hp
        rcases hp with hp | hp
        · subst hp; dsimp only at hpw0 ⊢; linarith
        · exact hj4 p (by simp [hp]) hpw0
    · have hsel : selBest ((i, v) :: rest) (some bv, Int.ofNat bj) =
          selBest rest (some bv, Int.ofNat bj) := by
        simp [selBest, if_neg hbv]
      rw [hsel]
      have hpw2 : List.Pairwise (· < ·) (bj :: rest.map Prod.fst) := by
        rw [List.pairwise_cons]
        refine ⟨fun b hb => hbj b (by simp [hb]), hpw1.2⟩
      obtain ⟨j, w, hj1, hj2, hj3, hj4⟩ := ih bv bj hpw2
      have hbvw : bv ≤ w := hj3 (bj, bv) (by simp)
      refine ⟨j, w, hj1, ?_, ?_, ?_⟩
      · simp only [List.mem_cons] at hj2 ⊢
        tauto
      · intro p hp
        simp only [List.mem_cons] at hp
        rcases hp with hp | hp | hp
        · exact hj3 p (by simp [hp])
        · subst hp; dsimp only; linarith
        · exact hj3 p (by simp [hp])
      · intro p hp hpw0
        simp only [List.mem_cons] at hp
        rcases hp with hp | hp | hp
        · exact hj4 p (by simp [hp]) hpw0
        · subst hp
          dsimp only at hpw0 ⊢
          have hbvw2 : bv = w := by linarith
          have : j ≤ bj := hj4 (bj, bv) (by simp) hbvw2
          omega
        · exact hj4 p (by simp [hp]) hpw0

lemma selBest_start (pairs : List (Nat × ℚ))
    (hpw : List.Pairwise (· < ·) (pairs.map Prod.fst)) :
    (pairs = [] ∧ selBest pairs (none, -1) = -1) ∨
      (∃ j w, selBest pairs (none, -1) = Int.ofNat j ∧ (j, w) ∈ pairs ∧
        (∀ p ∈ pairs, p.2 ≤ w) ∧ (∀ p ∈ pairs, p.2 = w → j ≤ p.1)) := by
  cases pairs with
  | nil => exact Or.inl ⟨rfl, rfl⟩
  | cons q rest =>
    obtain ⟨i, v⟩ := q
    refine Or.inr ?_
    have hsel : selBest ((i, v) :: rest) (none, -1) = selBest rest (some v, Int.ofNat i) := by
      simp [selBest]
    rw [hsel]
    exact selBest_go rest v i (by simpa using hpw)

lemma qualPairs_bounds (gts : List Box) (eff : Nat → Option ℚ) (thr : ℚ) :
    ∀ (n i : Nat) (p : Nat × ℚ), p ∈ qualPairs gts eff thr n i → i ≤ p.1 ∧ p.1 < i + n := by
  intro n
  induction n with
  | zero => intro i p hp; simp [qualPairs] at hp
  | succ n ih =>
    intro i p hp
    simp only [qualPairs] at hp
    by_cases hrow : (gts.getD i box0).c0 < 0
    · rw [if_pos hrow] at hp
      have := ih (i + 1) p hp
      omega
    · rw [if_neg hrow] at hp
      cases hv : eff i with
      | none =>
        rw [hv] at hp
        have := ih (i + 1) p hp
        omega
      | some iou =>
        rw [hv] at hp
        dsimp only at hp
        by_cases hthr : iou < thr
        · rw [if_pos hthr] at hp
          have := ih (i + 1) p hp
          omega
        · rw [if_neg hthr] at hp
          simp only [List.mem_cons] at hp
          rcases hp with hp | hp
          · subst hp; simp
          · have := ih (i + 1) p hp
            omega

lemma qualPairs_pairwise (gts : List Box) (eff : Nat → Option ℚ) (thr : ℚ) :
    ∀ (n i : Nat), List.Pairwise (· < ·) ((qualPairs gts eff thr n i).map Prod.fst) := by
  intro n
  induction n with
  | zero => intro i; simp [qualPairs]
  | succ n ih =>
    intro i
    simp only [qualPairs]
    by_cases hrow : (gts.getD i box0).c0 < 0
    · rw [if_pos hrow]; exact ih (i + 1)
    · rw [if_neg hrow]
      cases hv : eff i with
      | none => exact ih (i + 1)
      | some iou =>
        dsimp only
        by_cases hthr : iou < thr
        · rw [if_pos hthr]; exact ih (i + 1)
        · rw [if_neg hthr]
          simp only [List.map_cons, List.pairwise_cons]
          refine ⟨?_, ih (i + 1)⟩
          intro b hb
          simp only [List.mem_map] at hb
          obtain ⟨p, hp, hpb⟩ := hb
          have := qualPairs_bounds gts eff thr n (i + 1) p hp
          omega

lemma qualPairs_mem_iff (gts : List Box) (eff : Nat → Option ℚ) (thr : ℚ) :
    ∀ (n i j : Nat) (w : ℚ),
      ((j, w) ∈ qualPairs gts eff thr n i ↔
        (i ≤ j ∧ j < i + n ∧ ¬ (gts.getD j box0).c0 < 0 ∧ eff j = some w ∧ thr ≤ w)) := by
  intro n
  induction n with
  | zero => intro i j w; simp [qualPairs]; omega
  | succ n ih =>
    intro i j w
    simp only [qualPairs]
    by_cases hrow : (gts.getD i box0).c0 < 0
    · rw [if_pos hrow, ih (i + 1) j w]
      constructor
      · rintro ⟨h1, h2, h3, h4, h5⟩
        exact ⟨by omega, by omega, h3, h4, h5⟩
      · rintro ⟨h1, h2, h3, h4, h5⟩
        have hji : j ≠ i := by
          intro hx
          rw [hx] at h3
          exact h3 hrow
        exact ⟨by omega, by omega, h3, h4, h5⟩
    · rw [if_neg hrow]
      cases hv : eff i with
      | none =>
        rw [ih (i + 1) j w]
        constructor
        · rintro ⟨h1, h2, h3, h4, h5⟩
          exact ⟨by omega, by omega, h3, h4, h5⟩
        · rintro ⟨h1, h2, h3, h4, h5⟩
          refine ⟨?_, by omega, h3, h4, h5⟩
          have hji : j ≠ i := by
            intro hx
            rw [hx] at h4
            rw [h4] at hv
            exact Option.noConfusion hv
          omega
      | some iou =>
        dsimp only
        by_cases hthr : iou < thr
        · rw [if_pos hthr, ih (i + 1) j w]
          constructor
          · rintro ⟨h1, h2, h3, h4, h5⟩
            exact ⟨by omega, by omega, h3, h4, h5⟩
          · rintro ⟨h1, h2, h3, h4, h5⟩
            refine ⟨?_, by omega, h3, h4, h5⟩
            have hji : j ≠ i := by
              intro hx
              rw [hx, hv] at h4
              have : iou = w := by injection h4
              rw [this] at hthr
              exact absurd h5 (not_le.mpr hthr)
            omega
        · rw [if_neg hthr]
          simp only [List.mem_cons, Prod.mk.injEq, ih (i + 1) j w]
          constructor
          · rintro (⟨hj, hw⟩ | ⟨h1, h2, h3, h4, h5⟩)
            · subst hj; subst hw
              exact ⟨le_rfl, by omega, hrow, hv, not_lt.mp hthr⟩
            · exact ⟨by omega, by omega, h3, h4, h5⟩
          · rintro ⟨h1, h2, h3, h4, h5⟩
            by_cases hji : j = i
            · subst hji
              rw [hv] at h4
              have : iou = w := by injection h4
              exact Or.inl ⟨rfl, this.symm⟩
            · exact Or.inr ⟨by omega, by omega, h3, h4, h5⟩

/-- C5: `find_best_match` returns the index of the FIRST (lowest-index)
not-yet-matched ground-truth row achieving the maximum effective IoU among
candidates whose IoU reaches the threshold, and the sentinel `-1` when no
unmatched candidate reaches the threshold; an index whose IoU is below the
threshold is never returned.  The effective IoU of a row is the cached value
when the cache cell is nonnegative, else a freshly computed `calculate_iou`.
The hypothesis asks that no candidate's IoU computation raises (automatic
for valid boxes). -/
theorem find_best_match_first_argmax (gts : List Box) (pred : Box) (predIdx : Nat)
    (threshold : ℚ) (coco : Bool) (ious : Option Cache)
    (hnf : ∀ i, i < gts.length → ¬ (gts.getD i box0).c0 < 0 →
      effIou gts pred predIdx coco ious i ≠ none) :
    ∃ r c, find_best_match gts pred predIdx threshold coco ious = some (r, c) ∧
      ((¬ ∃ j w, QualCand gts pred predIdx coco ious threshold j w) → r = -1) ∧
      ((∃ j w, QualCand gts pred predIdx coco ious threshold j w) →
        ∃ j w, r = Int.ofNat j ∧ QualCand gts pred predIdx coco ious threshold j w ∧
          (∀ i v, QualCand gts pred predIdx coco ious threshold i v → v ≤ w) ∧
          (∀ i v, QualCand gts pred predIdx coco ious threshold i v → v = w → j ≤ i)) := by
  have hmap := fbmGo_eq_fbmPure gts pred predIdx threshold coco ious gts.length 0 ious
    (none, -1) (agreeFrom_refl predIdx ious 0)
  have hpure := fbmPure_eq_selBest gts (effIou gts pred predIdx coco ious) threshold
    gts.length 0 (none, -1) (fun j _ hj2 => hnf j (by omega) )
  rw [hpure] at hmap
  have hiff : ∀ j w, QualCand gts pred predIdx coco ious threshold j w ↔
      (j, w) ∈ qualPairs gts (effIou gts pred predIdx coco ious) threshold gts.length 0 := by
    intro j w
    rw [qualPairs_mem_iff]
    unfold QualCand
    constructor
    · rintro ⟨h1, h2, h3, h4⟩
      exact ⟨by omega, by omega, h2, h3, h4⟩
    · rintro ⟨h1, h2, h3, h4, h5⟩
      exact ⟨by omega, h3, h4, h5⟩
  obtain ⟨pr, hfind, hfst⟩ := Option.map_eq_some'.mp hmap
  obtain ⟨r, c⟩ := pr
  refine ⟨r, c, hfind, ?_, ?_⟩
  · intro hno
    rcases selBest_start _ (qualPairs_pairwise gts (effIou gts pred predIdx coco ious)
        threshold gts.length 0) with ⟨_, hsel⟩ | ⟨j, w, hsel, hmem, _, _⟩
    · simp only at hfst
      rw [hsel] at hfst
      exact hfst
    · exact absurd ⟨j, w, (hiff j w).mpr hmem⟩ hno
  · intro _
    rcases selBest_start _ (qualPairs_pairwise gts (effIou gts pred predIdx coco ious)
        threshold gts.length 0) with ⟨hnil, _⟩ | ⟨j, w, hsel, hmem, hmax, hfirst⟩
    · exfalso
      obtain ⟨j0, w0, hq⟩ := ‹∃ j w, QualCand gts pred predIdx coco ious threshold j w›
      have := (hiff j0 w0).mp hq
      rw [hnil] at this
      simp at this
    · simp only at hfst
      refine ⟨j, w, by rw [hfst]; exact hsel, (hiff j w).mpr hmem, ?_, ?_⟩
      · intro i v hq
        exact hmax (i, v) ((hiff i v).mp hq)
      · intro i v hq hvw
        exact hfirst (i, v) ((hiff i v).mp hq) hvw

/-- Witness for C5: three ground-truth rows — a low-IoU candidate, an
already-matched sentinel row, and a perfect match — with a fresh cache; the
hypothesis (no candidate IoU computation raises) is discharged by
evaluation. -/
theorem find_best_match_first_argmax_witness :
    ∃ r c, find_best_match [⟨0, 0, 4, 4⟩, ⟨-1, -1, -1, -1⟩, ⟨0, 0, 9, 9⟩] ⟨0, 0, 9, 9⟩ 0
        (1/2) false (some fun _ _ => -1) = some (r, c) ∧
      ((¬ ∃ j w, QualCand [⟨0, 0, 4, 4⟩, ⟨-1, -1, -1, -1⟩, ⟨0, 0, 9, 9⟩] ⟨0, 0, 9, 9⟩ 0
          false (some fun _ _ => -1) (1/2) j w) → r = -1) ∧
      ((∃ j w, QualCand [⟨0, 0, 4, 4⟩, ⟨-1, -1, -1, -1⟩, ⟨0, 0, 9, 9⟩] ⟨0, 0, 9, 9⟩ 0
          false (some fun _ _ => -1) (1/2) j w) →
        ∃ j w, r = Int.ofNat j ∧
          QualCand [⟨0, 0, 4, 4⟩, ⟨-1, -1, -1, -1⟩, ⟨0, 0, 9, 9⟩] ⟨0, 0, 9, 9⟩ 0
            false (some fun _ _ => -1) (1/2) j w ∧
          (∀ i v, QualCand [⟨0, 0, 4, 4⟩, ⟨-1, -1, -1, -1⟩, ⟨0, 0, 9, 9⟩] ⟨0, 0, 9, 9⟩ 0
            false (some fun _ _ => -1) (1/2) i v → v ≤ w) ∧
          (∀ i v, QualCand [⟨0, 0, 4, 4⟩, ⟨-1, -1, -1, -1⟩, ⟨0, 0, 9, 9⟩] ⟨0, 0, 9, 9⟩ 0
            false (some fun _ _ => -1) (1/2) i v → v = w → j ≤ i)) :=
  find_best_match_first_argmax _ _ _ _ _ _ (by
    intro i hi hrow
    simp only [List.length_cons, List.length_nil] at hi
    interval_cases i
    · intro hcontra
      norm_num [effIou, calculate_iou, iouCorners, box0, List.getD, min_def, max_def] at hcontra
      exact Option.noConfusion hcontra
    · exfalso
      apply hrow
      norm_num [box0, List.getD]
    · intro hcontra
      norm_num [effIou, calculate_iou, iouCorners, box0, List.getD, min_def,
        max_def] at hcontra
      exact Option.noConfusion hcontra)

lemma calculate_precision_full_nonneg (gts preds : List Box) (threshold : ℚ) (coco : Bool)
    (ious : Option Cache) (p : ℚ) (s : MatchState)
    (h : calculate_precision_full gts preds threshold coco ious = some (p, s)) : 0 ≤ p := by
  simp only [calculate_precision_full] at h
  cases hcp : cpGo threshold coco gts preds 0 ious 0 0 with
  | none => rw [hcp] at h; exact absurd h (by simp)
  | some s1 =>
    rw [hcp] at h
    dsimp only at h
    split_ifs at h
    simp only [Option.some.injEq, Prod.mk.injEq] at h
    rw [← h.1]
    positivity

lemma cipGo_nonneg (gts preds : List Box) (coco : Bool) (nthr : Nat) :
    ∀ (ts : List ℚ) (ious : Option Cache) (acc : ℚ) (p : ℚ) (g : List Box), 0 ≤ acc →
      cipGo gts preds coco nthr ts ious acc = some (p, g) → 0 ≤ p := by
  intro ts
  induction ts with
  | nil =>
    intro ious acc p g hacc h
    simp only [cipGo, Option.some.injEq, Prod.mk.injEq] at h
    exact h.1 ▸ hacc
  | cons t rest ih =>
    intro ious acc p g hacc h
    simp only [cipGo] at h
    cases hcp : calculate_precision_full gts preds t coco ious with
    | none => rw [hcp] at h; exact absurd h (by simp)
    | some ps =>
      obtain ⟨q, s⟩ := ps
      rw [hcp] at h
      dsimp only at h
      have hq : 0 ≤ q := calculate_precision_full_nonneg gts preds t coco ious q s hcp
      refine ih _ _ _ _ ?_ h
      have : (0:ℚ) ≤ q / (nthr : ℚ) := by positivity
      linarith

lemma finalScoresList_nonneg (score_threshold : ℚ) :
    ∀ (aps : List PredRecord) (l : List ℚ),
      finalScoresList score_threshold aps = some l → ∀ x ∈ l, 0 ≤ x := by
  intro aps
  induction aps with
  | nil =>
    intro l h x hx
    simp only [finalScoresList, Option.some.injEq] at h
    subst h
    simp at hx
  | cons r rest ih =>
    intro l h x hx
    simp only [finalScoresList] at h
    cases hcp : calculate_image_precision r.gt_boxes (filterByScore r score_threshold)
        competitionThresholds false with
    | none => rw [hcp] at h; exact absurd h (by simp)
    | some p =>
      rw [hcp] at h
      dsimp only at h
      cases hrest : finalScoresList score_threshold rest with
      | none => rw [hrest] at h; exact absurd h (by simp)
      | some l1 =>
        rw [hrest] at h
        simp only [Option.map_some', Option.some.injEq] at h
        subst h
        simp only [List.mem_cons] at hx
        rcases hx with hx | hx
        · subst hx
          simp only [calculate_image_precision, calculate_image_precision_full,
            Option.map_eq_some'] at hcp
          obtain ⟨⟨q, g⟩, hq, hq2⟩ := hcp
          simp only at hq2
          exact hq2 ▸ cipGo_nonneg _ _ _ _ _ _ _ _ _ (le_refl 0) hq
        · exact ih l1 hrest x hx

lemma calculate_final_score_nonneg (aps : List PredRecord) (c s : ℚ)
    (h : calculate_final_score aps c = some s) : 0 ≤ s := by
  simp only [calculate_final_score] at h
  cases hl : finalScoresList c aps with
  | none => rw [hl] at h; exact absurd h (by simp)
  | some l =>
    rw [hl] at h
    dsimp only at h
    split_ifs at h
    simp only [Option.some.injEq] at h
    subst h
    have hsum : 0 ≤ l.sum := List.sum_nonneg (finalScoresList_nonneg c aps l hl)
    positivity

lemma sweepGo_spec (aps : List PredRecord) :
    ∀ (grid : List ℚ) (best : ℚ),
      (∀ c ∈ grid, calculate_final_score aps c ≠ none) →
      ∃ M, sweepGo aps grid best = some M ∧ best ≤ M ∧
        (∀ c ∈ grid, ∀ s, calculate_final_score aps c = some s → s ≤ M) ∧
        (M = best ∨ ∃ c ∈ grid, calculate_final_score aps c = some M) := by
  intro grid
  induction grid with
  | nil =>
    intro best _
    exact ⟨best, rfl, le_refl best, by simp, Or.inl rfl⟩
  | cons c rest ih =>
    intro best H
    cases hc : calculate_final_score aps c with
    | none => exact absurd hc (H c (by simp))
    | some s =>
      have Hrest : ∀ x ∈ rest, calculate_final_score aps x ≠ none :=
        fun x hx => H x (by simp [hx])
      obtain ⟨M, hM1, hM2, hM3, hM4⟩ := ih (if best < s then s else best) Hrest
      have hble : best ≤ (if best < s then s else best) := by
        split_ifs with hb
        · linarith
        · exact le_refl best
      have hsle : s ≤ (if best < s then s else best) := by
        split_ifs with hb
        · exact le_refl s
        · linarith [not_lt.mp hb]
      refine ⟨M, ?_, by linarith, ?_, ?_⟩
      · simp only [sweepGo, hc]
        exact hM1
      · intro x hx t ht
        simp only [List.mem_cons] at hx
        rcases hx with hx | hx
        · subst hx
          rw [hc] at ht
          injection ht with ht
          subst ht
          linarith
        · exact hM3 x hx t ht
      · rcases hM4 with hM4 | ⟨x, hx, hxs⟩
        · by_cases hb : best < s
          · rw [if_pos hb] at hM4
            exact Or.inr ⟨c, by simp, hM4 ▸ hc⟩
          · rw [if_neg hb] at hM4
            exact Or.inl hM4
        · exact Or.inr ⟨x, by simp [hx], hxs⟩

lemma sweepGrid_length : sweepGrid.length = 30 := by
  simp only [sweepGrid, aRange, List.length_map, List.length_range]
  have h30 : ⌈((1:ℚ)/2 - 1/5) / (1/100)⌉ = 30 := by norm_num
  rw [h30]
  rfl

lemma sweepGrid_lt (c : ℚ) (hc : c ∈ sweepGrid) : c < 9/10 := by
  simp only [sweepGrid, aRange] at hc
  obtain ⟨k, hk, rfl⟩ := List.mem_map.mp hc
  rw [List.mem_range] at hk
  have h30 : ⌈((1:ℚ)/2 - 1/5) / (1/100)⌉ = 30 := by norm_num
  rw [h30] at hk
  have hk30 : k < 30 := hk
  have hk' : k ≤ 29 := by omega
  have hk29 : (k : ℚ) ≤ 29 := by exact_mod_cast hk'
  linarith

lemma mem_sweepGrid_fifth : (1/5 : ℚ) ∈ sweepGrid := by
  simp only [sweepGrid, aRange]
  have h30 : ⌈((1:ℚ)/2 - 1/5) / (1/100)⌉ = 30 := by norm_num
  refine List.mem_map.mpr ⟨0, ?_, by norm_num⟩
  rw [List.mem_range, h30]
  decide

lemma cfs_single_perfect (c : ℚ) (hc : c < 9/10) :
    calculate_final_score [⟨[⟨0, 0, 10, 10⟩], [⟨0, 0, 10, 10⟩], [9/10]⟩] c = some 1 := by
  have hfil : filterByScore ⟨[⟨0, 0, 10, 10⟩], [⟨0, 0, 10, 10⟩], [9/10]⟩ c =
      [⟨0, 0, 10, 10⟩] := by
    simp [filterByScore, hc]
  have himg : calculate_image_precision [⟨0, 0, 10, 10⟩] [⟨0, 0, 10, 10⟩]
      competitionThresholds false = some 1 := by
    norm_num [calculate_image_precision, calculate_image_precision_full, cipGo,
      competitionThresholds, calculate_precision_full, cpGo, find_best_match, fbmGo, fbmStep,
      calculate_iou, iouCorners, cacheSet, fnCount, box0, List.getD, min_def, max_def,
      List.set]
  simp only [calculate_final_score, finalScoresList, hfil, himg, Option.map_some']
  norm_num

lemma sweepGo_const_ge (aps : List PredRecord) (x : ℚ) :
    ∀ grid : List ℚ, (∀ c ∈ grid, calculate_final_score aps c = some x) →
      sweepGo aps grid x = some x := by
  intro grid
  induction grid with
  | nil => intro _; rfl
  | cons c rest ih =>
    intro H
    simp only [sweepGo, H c (by simp)]
    rw [if_neg (lt_irrefl x)]
    exact ih (fun y hy => H y (by simp [hy]))

lemma sweepGo_const_from (aps : List PredRecord) (x b : ℚ) (hb : b < x) :
    ∀ grid : List ℚ, grid ≠ [] →
      (∀ c ∈ grid, calculate_final_score aps c = some x) →
      sweepGo aps grid b = some x := by
  intro grid
  cases grid with
  | nil => intro h; exact absurd rfl h
  | cons c rest =>
    intro _ H
    simp only [sweepGo, H c (by simp)]
    rw [if_pos hb]
    exact sweepGo_const_ge aps x rest (fun y hy => H y (by simp [hy]))

/-- C9 counterexample: the sweep does not return the cutoff that achieved
the maximum.  On a one-image dataset with a perfect prediction at confidence
`0.9`, every candidate cutoff scores `1`, and the entire return value of the
sweep is the single number `1`, which differs from every candidate cutoff in
`np.arange(0.2, 0.5, 0.01)` — the cutoff is computed into no output (the
`best_score_threshold` bookkeeping is commented out in the source). -/
theorem sweep_returns_score_not_cutoff :
    evaluate_MAP_sweep [⟨[⟨0, 0, 10, 10⟩], [⟨0, 0, 10, 10⟩], [9/10]⟩] = some 1 ∧
      ∀ c ∈ sweepGrid, (1 : ℚ) ≠ c := by
  constructor
  · unfold evaluate_MAP_sweep
    refine sweepGo_const_from _ 1 0 (by norm_num) sweepGrid ?_ ?_
    · intro hnil
      have := sweepGrid_length
      rw [hnil] at this
      simp at this
    · intro c hc
      exact cfs_single_perfect c (sweepGrid_lt c hc)
  · intro c hc h1c
    have := sweepGrid_lt c hc
    rw [← h1c] at this
    norm_num at this

/-- C9 amended: the cutoff sweep of `evaluate_MAP` evaluates
`calculate_final_score` at each of the 30 candidate cutoffs
`0.20, 0.21, …, 0.49` of `np.arange(0.2, 0.5, 0.01)` and returns only the
maximum of those scores (the fold starts at `0` and keeps strict
improvements, so with all scores nonnegative the result is the maximum and
is attained at some candidate); the cutoff achieving it is not part of the
return value, and first-maximum tie-breaking concerns only that untracked
cutoff. -/
theorem sweep_returns_max_score (aps : List PredRecord)
    (H : ∀ c ∈ sweepGrid, calculate_final_score aps c ≠ none) :
    sweepGrid.length = 30 ∧
      ∃ M, evaluate_MAP_sweep aps = some M ∧
        (∀ c ∈ sweepGrid, ∀ s, calculate_final_score aps c = some s → s ≤ M) ∧
        (∃ c ∈ sweepGrid, calculate_final_score aps c = some M) := by
  refine ⟨sweepGrid_length, ?_⟩
  obtain ⟨M, h1, h2, h3, h4⟩ := sweepGo_spec aps sweepGrid 0 H
  refine ⟨M, h1, h3, ?_⟩
  rcases h4 with h4 | h4
  · cases hcs : calculate_final_score aps (1/5) with
    | none => exact absurd hcs (H _ mem_sweepGrid_fifth)
    | some s0 =>
      have hs0 : s0 ≤ M := h3 _ mem_sweepGrid_fifth s0 hcs
      have hs0n : 0 ≤ s0 := calculate_final_score_nonneg aps _ s0 hcs
      have hsM : s0 = M := by rw [h4]; linarith [h4 ▸ hs0]
      exact ⟨1/5, mem_sweepGrid_fifth, hsM ▸ hcs⟩
  · exact h4

/-- Witness for the amended C9: on the one-image dataset with a perfect
prediction at confidence `0.9`, every candidate cutoff's score is defined
(each equals `1`), and the sweep returns the maximum `1`, attained at a
candidate cutoff. -/
theorem sweep_returns_max_score_witness :
    sweepGrid.length = 30 ∧
      ∃ M, evaluate_MAP_sweep [⟨[⟨0, 0, 10, 10⟩], [⟨0, 0, 10, 10⟩], [9/10]⟩] = some M ∧
        (∀ c ∈ sweepGrid, ∀ s,
          calculate_final_score [⟨[⟨0, 0, 10, 10⟩], [⟨0, 0, 10, 10⟩], [9/10]⟩] c = some s →
            s ≤ M) ∧
        (∃ c ∈ sweepGrid,
          calculate_final_score [⟨[⟨0, 0, 10, 10⟩], [⟨0, 0, 10, 10⟩], [9/10]⟩] c = some M) :=
  sweep_returns_max_score _ (fun c hc => by
    rw [cfs_single_perfect c (sweepGrid_lt c hc)]
    exact Option.some_ne_none 1)
